import Mathlib

/-!
Verification of the Homalos datacenter lifecycle core against its
natural-language specification.

The repository ships the web frontend (Vue store, API client, SSE log
stream handling, legacy dashboard script) and the boot script that
registers modules with the `DataCenterStarter`; the starter itself, the
event bus and the log broadcaster are consumed here through their spec.
Definitions below are therefore of two kinds: direct shallow embeddings
of the TypeScript/JavaScript sources, and models whose doc comments
start with `Modelled from the spec:` for the lifecycle core whose code
is not part of this snapshot.
-/

namespace Datacenter

/-! ## Module registry and dependency resolver -/

/-- Modelled from the spec: a registry entry records a module's unique
name and the names of the modules it depends on, in registration order
(`register(name, instance, dependencies, startHook?, stopHook?)`). -/
structure RegEntry where
  name : String
  deps : List String
deriving Repr, DecidableEq

/-- A registry is the list of entries in registration order. -/
abbrev Registry := List RegEntry

/-- Modelled from the spec: errors of `resolveOrder()` —
`UnknownDependencyError` naming the missing dependency, or
`CyclicDependencyError` naming the members never removed by the
zero-in-degree elimination. -/
inductive ResolveError where
  | unknownDep (missing : String)
  | cyclic (members : List String)
deriving Repr, DecidableEq

/-- First dependency in the list that is not a registered name. -/
def firstUnknownIn (names : List String) : List String → Option String
  | [] => none
  | d :: ds => if names.contains d then firstUnknownIn names ds else some d

/-- First unknown dependency over the whole registry, scanning entries in
registration order. -/
def firstUnknown (names : List String) : Registry → Option String
  | [] => none
  | e :: es =>
    match firstUnknownIn names e.deps with
    | some d => some d
    | none => firstUnknown names es

/-- An entry has zero in-degree relative to the already removed names:
all of its dependencies have been removed. -/
def ready (removed : List String) (e : RegEntry) : Bool :=
  e.deps.all (fun d => removed.contains d)

/-- Extract the first (hence earliest-registered) zero-in-degree entry
from the pending list, returning it with the list of the remaining
entries in their original order. -/
def extractReady (removed : List String) : List RegEntry → Option (RegEntry × List RegEntry)
  | [] => none
  | e :: es =>
    if ready removed e then some (e, es)
    else
      match extractReady removed es with
      | none => none
      | some (r, rest) => some (r, e :: rest)

/-- Modelled from the spec: iterative removal of zero-in-degree nodes.
Each round removes the earliest-registered node whose dependencies have
all been removed (which keeps the order stable), until no node is
removable. Returns the removal order and the nodes never removed. One
unit of fuel is spent per removal, so fuel equal to the number of
pending entries always suffices. -/
def kahnLoop : Nat → List RegEntry → List String → List String × List RegEntry
  | 0, pending, removed => (removed, pending)
  | fuel + 1, pending, removed =>
    match extractReady removed pending with
    | none => (removed, pending)
    | some (e, rest) => kahnLoop fuel rest (removed ++ [e.name])

/-- Modelled from the spec: `resolveOrder()` — fail with
`UnknownDependencyError` on a dependency that is not a registered name;
otherwise run the zero-in-degree elimination; nodes never removed form a
cycle, reported by `CyclicDependencyError`; otherwise return the removal
order. -/
def resolveOrder (reg : Registry) : Except ResolveError (List String) :=
  match firstUnknown (reg.map (fun e => e.name)) reg with
  | some d => Except.error (ResolveError.unknownDep d)
  | none =>
    match kahnLoop reg.length reg [] with
    | (order, []) => Except.ok order
    | (_, leftover) => Except.error (ResolveError.cyclic (leftover.map (fun e => e.name)))

/-- The registration invariant of the spec: every entry's dependencies
are among the names registered before it (no forward references),
relative to an initial list of already known names. -/
def noFwd : List String → Registry → Bool
  | _, [] => true
  | known, e :: es => ready known e && noFwd (known ++ [e.name]) es

/-- A nonempty set of names every member of which depends on a member of
the set witnesses a cycle: none of its members can ever reach zero
in-degree. -/
def cycleSet (reg : Registry) (s : List String) : Bool :=
  s.all (fun n => reg.any (fun e => e.name == n && e.deps.any (fun d => s.contains d)))

/-! ## Lifecycle orchestrator: start and stop over the resolved order -/

/-- Modelled from the spec: the behaviour of an optional lifecycle hook
when invoked — absent, succeeding, or raising with a message. -/
inductive HookSpec where
  | absent
  | succeeds
  | fails (msg : String)
deriving Repr, DecidableEq

/-- Whether a hook is present on the descriptor. -/
def hookPresent : HookSpec → Bool
  | HookSpec.absent => false
  | _ => true

/-- Whether a hook raises when invoked. -/
def hookFails : HookSpec → Bool
  | HookSpec.fails _ => true
  | _ => false

/-- Modelled from the spec: a module descriptor as the orchestrator sees
it — the unique name and the optional start and stop hooks (the opaque
instance handle and the dependencies play no role once the order is
resolved). -/
structure ModuleDef where
  name : String
  startHook : HookSpec
  stopHook : HookSpec
deriving Repr, DecidableEq

/-- Per-module status enum of the spec's data model. -/
inductive ModStatus where
  | registered
  | pending
  | starting
  | running
  | error
deriving Repr, DecidableEq

/-- Aggregate status enum of the spec's data model. -/
inductive AggStatus where
  | stopped
  | starting
  | running
  | stopping
  | error
deriving Repr, DecidableEq

/-- Outcome of one `start()` run: success flag, final per-module
statuses, recorded error messages, the start hooks invoked (in order)
and the stop hooks invoked during rollback (in order), and the
aggregate status. -/
structure StartResult where
  ok : Bool
  statuses : List (String × ModStatus)
  errMsgs : List (String × String)
  startCalls : List String
  stopCalls : List String
  aggregate : AggStatus
deriving Repr, DecidableEq

/-- Stop hooks invoked when rolling back the modules started so far, in
reverse start order; modules without a stop hook contribute nothing. -/
def rollbackCalls (started : List ModuleDef) : List String :=
  ((started.filter (fun m => hookPresent m.stopHook)).map (fun m => m.name)).reverse

/-- Start hooks invoked over a fully started segment. -/
def startHookCalls (mods : List ModuleDef) : List String :=
  (mods.filter (fun m => hookPresent m.startHook)).map (fun m => m.name)

/-- Modelled from the spec: the sequential start pass. `started` is the
list of modules that reached `running` in this run, in start order. For
each module in resolved order, invoke the start hook if present (no
hook means immediate `running`); on hook failure mark that module
`error`, record its `error_message`, abort the remaining sequence, roll
back by invoking the stop hooks of the started modules in reverse start
order (those modules end `registered` again), set aggregate `error` and
report failure. On full success every module is `running` and the
aggregate is `running`. -/
def runStartGo : List ModuleDef → List ModuleDef → StartResult
  | [], started =>
    { ok := true
      statuses := started.map (fun m => (m.name, ModStatus.running))
      errMsgs := []
      startCalls := startHookCalls started
      stopCalls := []
      aggregate := AggStatus.running }
  | m :: rest, started =>
    match m.startHook with
    | HookSpec.absent => runStartGo rest (started ++ [m])
    | HookSpec.succeeds => runStartGo rest (started ++ [m])
    | HookSpec.fails msg =>
      { ok := false
        statuses :=
          started.map (fun s => (s.name, ModStatus.registered))
            ++ (m.name, ModStatus.error)
            :: rest.map (fun s => (s.name, ModStatus.registered))
        errMsgs := [(m.name, msg)]
        startCalls := startHookCalls started ++ [m.name]
        stopCalls := rollbackCalls started
        aggregate := AggStatus.error }

/-- Modelled from the spec: `start()` over the resolved order. -/
def runStart (mods : List ModuleDef) : StartResult :=
  runStartGo mods []

/-- Outcome of one `stop()` pass: the stop hooks invoked (in order),
the final per-module statuses and the aggregate status. -/
structure StopResult where
  stopCalls : List String
  statuses : List (String × ModStatus)
  aggregate : AggStatus
deriving Repr, DecidableEq

/-- Final status of a module after its stop transition: a failing stop
hook leaves it `error`, otherwise it returns to `registered`. -/
def stopStatus : HookSpec → ModStatus
  | HookSpec.fails _ => ModStatus.error
  | _ => ModStatus.registered

/-- One best-effort pass over a list of modules: invoke each present
stop hook; a failure marks that module `error` but the pass continues
with the remaining modules. -/
def stopPass : List ModuleDef → List String × List (String × ModStatus)
  | [] => ([], [])
  | m :: rest =>
    let (calls, sts) := stopPass rest
    ((if hookPresent m.stopHook then [m.name] else []) ++ calls,
     (m.name, stopStatus m.stopHook) :: sts)

/-- Modelled from the spec: `stop()` — invoke stop hooks in reverse
start order, best-effort (failures never abort the pass), and set the
aggregate status to `stopped` when the pass completes. `mods` is the
start order of the started modules. -/
def runStop (mods : List ModuleDef) : StopResult :=
  { stopCalls := (stopPass mods.reverse).1
    statuses := (stopPass mods.reverse).2
    aggregate := AggStatus.stopped }

/-! ## Control-operation mutual exclusion -/

/-- The three control operations guarded by the orchestrator's lock. -/
inductive CtrlOp where
  | start
  | stop
  | restart
deriving Repr, DecidableEq

/-- Modelled from the spec: the error returned to a second control
caller while one operation is in flight. -/
inductive CtrlError where
  | controlConflict
deriving Repr, DecidableEq

/-- Modelled from the spec: the orchestrator with its single
mutual-exclusion control lock — `inFlight` is the operation currently
holding the lock, `state` everything an operation reads and writes. -/
structure Orch (σ : Type) where
  inFlight : Option CtrlOp
  state : σ
deriving Repr, DecidableEq

/-- Modelled from the spec: a control request. If an operation is in
flight the caller is rejected with `ControlConflictError` and nothing
is recorded or queued (the orchestrator is returned untouched);
otherwise the operation takes the lock, runs to completion and releases
the lock. -/
def requestControl {σ : Type} (run : CtrlOp → σ → σ × Bool) (o : Orch σ) (op : CtrlOp) :
    Orch σ × Except CtrlError Bool :=
  match o.inFlight with
  | some _ => (o, Except.error CtrlError.controlConflict)
  | none =>
    let (s2, r) := run op o.state
    ({ inFlight := none, state := s2 }, Except.ok r)

/-- Finish the operation currently in flight, if any, producing its
final orchestrator state and return value. -/
def completeInFlight {σ : Type} (run : CtrlOp → σ → σ × Bool) (o : Orch σ) : Orch σ × Bool :=
  match o.inFlight with
  | some op =>
    let (s2, r) := run op o.state
    ({ inFlight := none, state := s2 }, r)
  | none => (o, true)

/-! ## Event bus subscriber buffers -/

/-- Modelled from the spec: the configured overload policy of a
subscriber's bounded receive buffer. -/
inductive DropPolicy where
  | dropOldest
  | dropNewest
deriving Repr, DecidableEq

/-- Modelled from the spec: a subscriber of a topic — bounded receive
buffer with its capacity, the configured drop policy and the
per-subscriber dropped-event counter. -/
structure Subscriber (α : Type) where
  capacity : Nat
  buffer : List α
  policy : DropPolicy
  dropped : Nat
deriving Repr, DecidableEq

/-- Modelled from the spec: offering one event to one subscriber. Below
capacity the event is enqueued; on a full buffer the drop policy is
applied (drop-oldest evicts the oldest buffered event and enqueues the
new one, drop-newest discards the new event) and the dropped-event
counter is incremented; the function is total, so the publisher is
never blocked. -/
def offer {α : Type} (s : Subscriber α) (e : α) : Subscriber α :=
  if s.buffer.length < s.capacity then
    { s with buffer := s.buffer ++ [e] }
  else
    match s.policy with
    | DropPolicy.dropOldest =>
      { s with buffer := s.buffer.tail ++ [e], dropped := s.dropped + 1 }
    | DropPolicy.dropNewest =>
      { s with dropped := s.dropped + 1 }

/-- Modelled from the spec: publishing one event on a topic delivers it
independently to every subscriber registered on that topic. -/
def publish {α : Type} (subs : List (Subscriber α)) (e : α) : List (Subscriber α) :=
  subs.map (fun s => offer s e)

/-! ## Log entries, API client and frontend log store -/

/-- Log level enum (src/frontend/src/types: LogLevel). -/
inductive LogLevel where
  | DEBUG
  | INFO
  | WARNING
  | ERROR
deriving Repr, DecidableEq

/-- A log entry as the frontend stores it (src/frontend/src/types:
LogEntry — timestamp, level, message; further structured fields do not
affect the claims below). -/
structure LogEntry where
  timestamp : String
  level : LogLevel
  message : String
deriving Repr, DecidableEq

/-- The response envelope of the HTTP surface
(src/frontend/src/types: ApiResponse — code, message, optional data). -/
structure ApiResponse (α : Type) where
  code : Int
  message : String
  data : Option α
deriving Repr, DecidableEq

/-- An HTTP request as issued by the API client: method, path relative
to the client's base URL and the `limit` query parameter. -/
structure HttpRequest where
  method : String
  path : String
  limitParam : Nat
deriving Repr, DecidableEq

/-- Base URL of the axios client (src/frontend/src/api/datacenter.ts). -/
def apiBaseUrl : String := "/datacenter"

/-- The request issued by DatacenterApi.getLogs
(src/frontend/src/api/datacenter.ts): GET on `/logs` with the `limit`
query parameter, whose declared default is 100 when the caller passes
no explicit limit. -/
def getLogsRequest (limit : Option Nat) : HttpRequest :=
  { method := "GET", path := "/logs", limitParam := limit.getD 100 }

/-- DatacenterApi.getLogs returns the `data` field of the envelope. -/
def getLogsResult (r : ApiResponse (List LogEntry)) : Option (List LogEntry) :=
  r.data

/-- Capacity bound of the frontend log store
(src/frontend/src/stores/datacenter.ts: addLog). -/
def maxStoredLogs : Nat := 500

/-- useDatacenterStore.addLog: push the entry, then drop the oldest
entry when the length exceeds the bound. -/
def addLog (logs : List LogEntry) (l : LogEntry) : List LogEntry :=
  let ls := logs ++ [l]
  if maxStoredLogs < ls.length then ls.tail else ls

/-- useDatacenterStore.clearLogs: empty the list. -/
def clearLogs : List LogEntry := []

/-! ## SSE log stream client -/

/-- URL opened by the log stream clients (dashboard.js connectLogStream
and DatacenterApi.createLogStream). -/
def logStreamUrl : String := "/datacenter/logs/stream"

/-- Reconnection delay of the stream clients in milliseconds
(setTimeout(connectLogStream, 5000) in dashboard.js, setTimeout(connect,
5000) in useLogs.ts). -/
def reconnectDelayMs : Nat := 5000

/-- Externally visible actions of the stream client: closing an
EventSource, opening one on a URL, scheduling a reconnection attempt
after a delay. -/
inductive SseAction where
  | closeSource (id : Nat)
  | openSource (url : String)
  | scheduleReconnect (delayMs : Nat)
deriving Repr, DecidableEq

/-- The stream client's state: the id of the current EventSource, if
any, and the connected flag. -/
structure LogStreamClient where
  current : Option Nat
  connected : Bool
deriving Repr, DecidableEq

/-- connectLogStream (dashboard.js) and connect (useLogs.ts): close the
existing EventSource if there is one, then open a new one on the log
stream URL. -/
def connectLogStream (st : LogStreamClient) (newId : Nat) : LogStreamClient × List SseAction :=
  ({ current := some newId, connected := st.connected },
   (match st.current with
    | some c => [SseAction.closeSource c]
    | none => []) ++ [SseAction.openSource logStreamUrl])

/-- The onerror handler of both clients: mark the client disconnected
and schedule a reconnection after the fixed delay. -/
def onStreamError (st : LogStreamClient) : LogStreamClient × List SseAction :=
  ({ current := st.current, connected := false },
   [SseAction.scheduleReconnect reconnectDelayMs])

/-- Modelled from the spec: the Log Stream Broadcaster delivers to a
connection only the events published after it connected — `joinIdx` is
the number of events already published when the connection opened, and
nothing before it is replayed. -/
def deliveredTo (events : List LogEntry) (joinIdx : Nat) : List LogEntry :=
  events.drop joinIdx

/-! ## Incoming log event handling -/

/-- JSON values as JSON.parse produces them. -/
inductive Json where
  | null
  | bool (b : Bool)
  | num (n : Int)
  | str (s : String)
  | arr (elems : List Json)
  | obj (fields : List (String × Json))

/-- The guard `log && typeof log === 'object'` of the log event
listeners: null, booleans, numbers and strings are rejected (null is
falsy, the rest have a different typeof); arrays and objects pass. -/
def isTruthyJsObject : Json → Bool
  | Json.arr _ => true
  | Json.obj _ => true
  | _ => false

/-- The guard `!event.data || event.data.trim() === ''` holds exactly
when every character of the payload is whitespace (the empty payload
included). -/
def isBlank (s : String) : Bool :=
  s.data.all (fun c => c.isWhitespace)

/-- The `log` event listener of useLogs.ts and dashboard.js: an absent
or whitespace-only payload is ignored; the payload is then parsed
(`parse` stands for JSON.parse, returning none when it throws — the
listener catches the exception and adds nothing); a parsed value is
appended only when it passes the truthy-object guard. -/
def handleLogEvent (parse : String → Option Json) (payload : Option String)
    (logs : List Json) : List Json :=
  match payload with
  | none => logs
  | some s =>
    if isBlank s then logs
    else
      match parse s with
      | none => logs
      | some j => if isTruthyJsObject j then logs ++ [j] else logs


/-! ## Concrete sample data used by the witnesses -/

/-- Sample registry: B depends on A, C is independent. -/
def regSample : Registry := [⟨"A", []⟩, ⟨"B", ["A"]⟩, ⟨"C", []⟩]

/-- Sample cyclic registry: A and B depend on each other. -/
def regCyc : Registry := [⟨"A", ["B"]⟩, ⟨"B", ["A"]⟩]

/-- Sample module that starts without a hook and has a stop hook. -/
def modA : ModuleDef :=
  { name := "A", startHook := HookSpec.absent, stopHook := HookSpec.succeeds }

/-- Sample module whose start hook raises. -/
def modB : ModuleDef :=
  { name := "B", startHook := HookSpec.fails "boom", stopHook := HookSpec.absent }

/-- Sample started module with a succeeding stop hook. -/
def modD : ModuleDef :=
  { name := "D", startHook := HookSpec.succeeds, stopHook := HookSpec.succeeds }

/-- Sample started module whose stop hook raises. -/
def modE : ModuleDef :=
  { name := "E", startHook := HookSpec.succeeds, stopHook := HookSpec.fails "stopboom" }

/-- Sample subscriber with a full one-slot buffer. -/
def subFull : Subscriber Nat :=
  { capacity := 1, buffer := [7], policy := DropPolicy.dropOldest, dropped := 0 }

/-- Sample log entry. -/
def sampleEntry : LogEntry :=
  { timestamp := "2026-01-01T00:00:00Z", level := LogLevel.INFO, message := "hello" }

/-- JSON.parse at the single payload of the counterexample: the string
"[1]" parses to the JSON array [1] (a non-object JSON value). -/
def parseArrayPayload : String → Option Json :=
  fun s => if s = "[1]" then some (Json.arr [Json.num 1]) else none

/-! ## Helper lemmas for the dependency resolver -/

theorem extractReady_some_decomp (removed : List String) :
    ∀ (pending : List RegEntry) (e : RegEntry) (rest : List RegEntry),
    extractReady removed pending = some (e, rest) →
    ready removed e = true ∧ ∃ l₁ l₂, pending = l₁ ++ e :: l₂ ∧ rest = l₁ ++ l₂ := by
  intro pending
  induction pending with
  | nil => intro e rest h; simp [extractReady] at h
  | cons x xs ih =>
    intro e rest h
    cases hx : ready removed x with
    | true =>
      rw [extractReady, if_pos hx] at h
      obtain ⟨he, hrest⟩ := Prod.mk.injEq .. ▸ (Option.some.injEq .. ▸ h)
      exact ⟨he ▸ hx, [], xs, by simp [he, hrest], by simp [hrest]⟩
    | false =>
      rw [extractReady, if_neg (by simp [hx])] at h
      cases hxs : extractReady removed xs with
      | none => rw [hxs] at h; exact absurd h (by simp)
      | some pr =>
        obtain ⟨r, rest2⟩ := pr
        rw [hxs] at h
        have he : r = e ∧ x :: rest2 = rest := by
          constructor
          · exact congrArg Prod.fst (Option.some.inj h)
          · exact congrArg Prod.snd (Option.some.inj h)
        obtain ⟨he1, he2⟩ := he
        obtain ⟨hr, l₁, l₂, hp, hrr⟩ := ih r rest2 hxs
        refine ⟨he1 ▸ hr, x :: l₁, l₂, ?_, ?_⟩
        · simp [hp, he1]
        · rw [← he2, hrr]; simp

theorem kahnLoop_nil (fuel : Nat) (removed : List String) :
    kahnLoop fuel [] removed = (removed, []) := by
  cases fuel <;> simp [kahnLoop, extractReady]

theorem kahnLoop_noFwd :
    ∀ (pending : List RegEntry) (removed : List String) (fuel : Nat),
    pending.length ≤ fuel → noFwd removed pending = true →
    kahnLoop fuel pending removed = (removed ++ pending.map (fun e => e.name), []) := by
  intro pending
  induction pending with
  | nil => intro removed fuel _ _; simp [kahnLoop_nil]
  | cons e es ih =>
    intro removed fuel hlen hwf
    cases fuel with
    | zero => simp at hlen
    | succ f =>
      rw [noFwd, Bool.and_eq_true] at hwf
      obtain ⟨h1, h2⟩ := hwf
      rw [kahnLoop]
      rw [show extractReady removed (e :: es) = some (e, es) by rw [extractReady, if_pos h1]]
      show kahnLoop f es (removed ++ [e.name]) = (removed ++ (e :: es).map (fun e => e.name), [])
      rw [ih (removed ++ [e.name]) f (by simpa using hlen) h2]
      simp

theorem noFwd_decomp :
    ∀ (l₁ : Registry) (known : List String) (e : RegEntry) (l₂ : Registry),
    noFwd known (l₁ ++ e :: l₂) = true →
    ∀ d ∈ e.deps, d ∈ known ++ l₁.map (fun x => x.name) := by
  intro l₁
  induction l₁ with
  | nil =>
    intro known e l₂ h d hd
    rw [List.nil_append, noFwd, Bool.and_eq_true] at h
    have := (List.all_eq_true.mp h.1) d hd
    simpa using List.mem_of_elem_eq_true this
  | cons x xs ih =>
    intro known e l₂ h d hd
    rw [List.cons_append, noFwd, Bool.and_eq_true] at h
    have := ih (known ++ [x.name]) e l₂ h.2 d hd
    simpa [List.append_assoc] using this

theorem noFwd_mem :
    ∀ (pending : Registry) (known : List String),
    noFwd known pending = true →
    ∀ e ∈ pending, ∀ d ∈ e.deps, d ∈ known ++ pending.map (fun x => x.name) := by
  intro pending known h e he d hd
  obtain ⟨l₁, l₂, rfl⟩ := List.append_of_mem he
  have hm := noFwd_decomp l₁ known e l₂ h d hd
  rw [List.mem_append] at hm
  rcases hm with hk | hl
  · exact List.mem_append.mpr (Or.inl hk)
  · refine List.mem_append.mpr (Or.inr ?_)
    simp only [List.map_append, List.map_cons, List.mem_append]
    exact Or.inl hl

theorem firstUnknownIn_eq_none (names : List String) :
    ∀ (ds : List String), (∀ d ∈ ds, names.contains d = true) → firstUnknownIn names ds = none := by
  intro ds
  induction ds with
  | nil => intro _; rfl
  | cons d ds ih =>
    intro h
    rw [firstUnknownIn, if_pos (h d (List.mem_cons_self d ds))]
    exact ih (fun x hx => h x (List.mem_cons_of_mem d hx))

theorem firstUnknown_eq_none (names : List String) :
    ∀ (reg : Registry), (∀ e ∈ reg, ∀ d ∈ e.deps, names.contains d = true) →
    firstUnknown names reg = none := by
  intro reg
  induction reg with
  | nil => intro _; rfl
  | cons e es ih =>
    intro h
    rw [firstUnknown]
    rw [firstUnknownIn_eq_none names e.deps (h e (List.mem_cons_self e es))]
    exact ih (fun x hx => h x (List.mem_cons_of_mem e hx))

theorem firstUnknownIn_eq_some (names : List String) :
    ∀ (ds : List String) (d : String), firstUnknownIn names ds = some d →
    names.contains d = false ∧ d ∈ ds := by
  intro ds
  induction ds with
  | nil => intro d h; simp [firstUnknownIn] at h
  | cons x xs ih =>
    intro d h
    cases hx : names.contains x with
    | true =>
      rw [firstUnknownIn, if_pos hx] at h
      obtain ⟨h1, h2⟩ := ih d h
      exact ⟨h1, List.mem_cons_of_mem x h2⟩
    | false =>
      rw [firstUnknownIn, if_neg (by rw [hx]; simp)] at h
      cases h
      exact ⟨hx, List.mem_cons_self x xs⟩

theorem firstUnknown_eq_some (names : List String) :
    ∀ (reg : Registry) (d : String), firstUnknown names reg = some d →
    names.contains d = false ∧ ∃ e ∈ reg, d ∈ e.deps := by
  intro reg
  induction reg with
  | nil => intro d h; simp [firstUnknown] at h
  | cons e es ih =>
    intro d h
    rw [firstUnknown] at h
    cases hin : firstUnknownIn names e.deps with
    | some x =>
      rw [hin] at h
      cases h
      obtain ⟨h1, h2⟩ := firstUnknownIn_eq_some names e.deps d hin
      exact ⟨h1, e, List.mem_cons_self e es, h2⟩
    | none =>
      rw [hin] at h
      obtain ⟨h1, ex, hex, hd⟩ := ih d h
      exact ⟨h1, ex, List.mem_cons_of_mem e hex, hd⟩

theorem kahnLoop_fuel_of_le :
    ∀ (fuel k : Nat) (pending : List RegEntry) (removed : List String),
    pending.length ≤ fuel →
    kahnLoop (fuel + k) pending removed = kahnLoop fuel pending removed := by
  intro fuel
  induction fuel with
  | zero =>
    intro k pending removed hlen
    have : pending = [] := List.length_eq_zero.mp (Nat.le_zero.mp hlen)
    subst this
    simp [kahnLoop_nil]
  | succ f ih =>
    intro k pending removed hlen
    have hsum : f + 1 + k = (f + k) + 1 := by omega
    rw [hsum, kahnLoop, kahnLoop]
    cases hex : extractReady removed pending with
    | none => rfl
    | some pr =>
      obtain ⟨e, rest⟩ := pr
      show kahnLoop (f + k) rest (removed ++ [e.name]) = kahnLoop f rest (removed ++ [e.name])
      obtain ⟨_, l₁, l₂, hp, hr⟩ := extractReady_some_decomp removed pending e rest hex
      have hlr : rest.length ≤ f := by
        subst hp; subst hr; simp at hlen ⊢; omega
      exact ih k rest (removed ++ [e.name]) hlr

theorem name_eq_of_nodup :
    ∀ (l₁ : Registry) (e ent : RegEntry) (l₂ : Registry),
    (((l₁ ++ e :: l₂).map (fun x => x.name)).Nodup) →
    ent ∈ l₁ ++ e :: l₂ → ent.name = e.name → ent = e := by
  intro l₁ e ent l₂ hnd hm hn
  rw [List.map_append, List.nodup_append] at hnd
  obtain ⟨hn1, hn2, hdisj⟩ := hnd
  rcases List.mem_append.mp hm with h1 | h2
  · exfalso
    have : ent.name ∈ l₁.map (fun x => x.name) := List.mem_map_of_mem _ h1
    have : e.name ∈ l₁.map (fun x => x.name) := hn ▸ this
    exact hdisj this (by simp)
  · rcases h2 with _ | ⟨_, h3⟩
    · rfl
    · exfalso
      rw [List.map_cons, List.nodup_cons] at hn2
      exact hn2.1 (hn ▸ List.mem_map_of_mem _ h3)

theorem kahnLoop_cycle_invariant (s : List String) :
    ∀ (fuel : Nat) (pending : List RegEntry) (removed : List String),
    ((pending.map (fun x => x.name)).Nodup) →
    (∀ n ∈ s, ¬ n ∈ removed) →
    (∀ n ∈ s, ∃ ent ∈ pending, ent.name = n ∧ ∃ d ∈ ent.deps, d ∈ s) →
    ∀ n ∈ s, ∃ ent ∈ (kahnLoop fuel pending removed).2, ent.name = n := by
  intro fuel
  induction fuel with
  | zero =>
    intro pending removed _ _ h3 n hn
    obtain ⟨ent, hent, hname, _⟩ := h3 n hn
    exact ⟨ent, hent, hname⟩
  | succ f ih =>
    intro pending removed hnd h2 h3
    rw [kahnLoop]
    cases hex : extractReady removed pending with
    | none =>
      intro n hn
      obtain ⟨ent, hent, hname, _⟩ := h3 n hn
      exact ⟨ent, hent, hname⟩
    | some pr =>
      obtain ⟨e, rest⟩ := pr
      show ∀ n ∈ s, ∃ ent ∈ (kahnLoop f rest (removed ++ [e.name])).2, ent.name = n
      obtain ⟨hready, l₁, l₂, hp, hr⟩ := extractReady_some_decomp removed pending e rest hex
      have hes : ¬ e.name ∈ s := by
        intro hmem
        obtain ⟨ent, hent, hname, d, hd, hds⟩ := h3 e.name hmem
        have : ent = e := name_eq_of_nodup l₁ e ent l₂ (hp ▸ hnd) (hp ▸ hent) hname
        subst this
        have : removed.contains d = true := (List.all_eq_true.mp hready) d hd
        exact h2 d hds (List.mem_of_elem_eq_true this)
      apply ih rest (removed ++ [e.name])
      · have hsub : List.Sublist rest pending := by
          rw [hp, hr]
          exact (List.sublist_cons_self e l₂).append_left l₁
        exact hnd.sublist (hsub.map (fun x => x.name))
      · intro n hns hcon
        rcases List.mem_append.mp hcon with hc1 | hc2
        · exact h2 n hns hc1
        · rw [List.mem_singleton] at hc2
          exact hes (hc2 ▸ hns)
      · intro n hns
        obtain ⟨ent, hent, hname, d, hd, hds⟩ := h3 n hns
        have hne : ent ≠ e := by
          intro hh
          apply hes
          rw [← hname, hh] at hns
          exact hns
        refine ⟨ent, ?_, hname, d, hd, hds⟩
        rw [hr]
        rw [hp] at hent
        rcases List.mem_append.mp hent with ha | hb
        · exact List.mem_append.mpr (Or.inl ha)
        · rcases hb with _ | ⟨_, hb2⟩
          · exact absurd rfl hne
          · exact List.mem_append.mpr (Or.inr hb2)

theorem firstUnknownIn_none_mem (names : List String) :
    ∀ (ds : List String), firstUnknownIn names ds = none → ∀ d ∈ ds, names.contains d = true := by
  intro ds
  induction ds with
  | nil => intro _ d hd; cases hd
  | cons x xs ih =>
    intro h d hd
    cases hx : names.contains x with
    | false => rw [firstUnknownIn, if_neg (by rw [hx]; simp)] at h; cases h
    | true =>
      rw [firstUnknownIn, if_pos hx] at h
      rcases hd with _ | ⟨_, hd2⟩
      · exact hx
      · exact ih h d hd2

theorem firstUnknown_none_mem (names : List String) :
    ∀ (reg : Registry), firstUnknown names reg = none →
    ∀ e ∈ reg, ∀ d ∈ e.deps, names.contains d = true := by
  intro reg
  induction reg with
  | nil => intro _ e he; cases he
  | cons x xs ih =>
    intro h e he d hd
    rw [firstUnknown] at h
    cases hin : firstUnknownIn names x.deps with
    | some y => rw [hin] at h; cases h
    | none =>
      rw [hin] at h
      rcases he with _ | ⟨_, he2⟩
      · exact firstUnknownIn_none_mem names x.deps hin d hd
      · exact ih h e he2 d hd

/-- Claim C2: for every registry satisfying the registration invariant
(unique names, dependencies only among already registered names — the
spec's no-forward-references invariant, which also makes the graph
acyclic and free of unknown dependencies), resolveOrder succeeds and
returns exactly the registration order; hence each registered name
occurs exactly once, every module appears strictly after all of its
declared dependencies, and any two modules — constrained or not — keep
their registration order (stability). -/
theorem resolveOrder_topological_stable (reg : Registry)
    (hnd : (reg.map (fun x => x.name)).Nodup)
    (hwf : noFwd [] reg = true) :
    resolveOrder reg = Except.ok (reg.map (fun x => x.name)) ∧
    (∀ n ∈ reg.map (fun x => x.name), (reg.map (fun x => x.name)).count n = 1) ∧
    (∀ l₁ e l₂, reg = l₁ ++ e :: l₂ → ∀ d ∈ e.deps,
      (reg.map (fun x => x.name)).indexOf d < (reg.map (fun x => x.name)).indexOf e.name) := by
  have hfu : firstUnknown (reg.map (fun x => x.name)) reg = none := by
    apply firstUnknown_eq_none
    intro e he d hd
    have := noFwd_mem reg [] hwf e he d hd
    exact List.elem_eq_true_of_mem (by simpa using this)
  have hkl : kahnLoop reg.length reg [] = (reg.map (fun x => x.name), []) := by
    have := kahnLoop_noFwd reg [] reg.length (Nat.le_refl _) hwf
    simpa using this
  refine ⟨?_, ?_, ?_⟩
  · simp [resolveOrder, hfu, hkl]
  · intro n hn
    exact List.count_eq_one_of_mem hnd hn
  · intro l₁ e l₂ hreg d hd
    subst hreg
    have hdl : d ∈ l₁.map (fun x => x.name) := by
      have := noFwd_decomp l₁ [] e l₂ hwf d hd
      simpa using this
    have hen : e.name ∉ l₁.map (fun x => x.name) := by
      rw [List.map_append, List.nodup_append] at hnd
      exact fun hmem => hnd.2.2 hmem (by simp)
    rw [List.map_append, List.map_cons]
    rw [List.indexOf_append_of_mem hdl, List.indexOf_append_of_not_mem hen,
        List.indexOf_cons_self]
    have := List.indexOf_lt_length.mpr hdl
    omega

/-- Claim C3: the zero-in-degree elimination reaches its fixpoint within
fuel equal to the number of pending entries, so resolution terminates on
every registry; on a registry with a dependency cycle (witnessed by a
nonempty set of names each depending on another member) and no unknown
dependency, resolveOrder fails with CyclicDependencyError whose members
are exactly the names never removed by the elimination, and every
member of the witnessing set is among them; the two-cycle example
reports exactly its two members; a registry referencing an unregistered
name fails with UnknownDependencyError naming that missing dependency. -/
theorem resolveOrder_terminates_and_reports_errors :
    (∀ (pending : List RegEntry) (removed : List String) (k : Nat),
        kahnLoop (pending.length + k) pending removed =
          kahnLoop pending.length pending removed) ∧
    (∀ (reg : Registry) (s : List String),
        ((reg.map (fun x => x.name)).Nodup) →
        firstUnknown (reg.map (fun x => x.name)) reg = none →
        s ≠ [] → cycleSet reg s = true →
        resolveOrder reg =
          Except.error (ResolveError.cyclic
            (((kahnLoop reg.length reg []).2).map (fun x => x.name))) ∧
        ∀ n ∈ s, n ∈ ((kahnLoop reg.length reg []).2).map (fun x => x.name)) ∧
    (resolveOrder [⟨"A", ["B"]⟩, ⟨"B", ["A"]⟩] =
        Except.error (ResolveError.cyclic ["A", "B"])) ∧
    (∀ (reg : Registry), (∃ e ∈ reg, ∃ d ∈ e.deps, ¬ d ∈ reg.map (fun x => x.name)) →
        ∃ d, resolveOrder reg = Except.error (ResolveError.unknownDep d) ∧
          ¬ d ∈ reg.map (fun x => x.name) ∧ ∃ e ∈ reg, d ∈ e.deps) := by
  refine ⟨?_, ?_, ?_, ?_⟩
  · intro pending removed k
    exact kahnLoop_fuel_of_le pending.length k pending removed (Nat.le_refl _)
  · intro reg s hnd hfu hne hcyc
    have h3 : ∀ n ∈ s, ∃ ent ∈ reg, ent.name = n ∧ ∃ d ∈ ent.deps, d ∈ s := by
      intro n hn
      have h1 := List.all_eq_true.mp hcyc n hn
      obtain ⟨e, he, hb⟩ := List.any_eq_true.mp h1
      rw [Bool.and_eq_true] at hb
      obtain ⟨d, hd, hds⟩ := List.any_eq_true.mp hb.2
      exact ⟨e, he, beq_iff_eq.mp hb.1, d, hd, List.mem_of_elem_eq_true hds⟩
    have inv := kahnLoop_cycle_invariant s reg.length reg [] hnd (by simp) h3
    have hmem : ∀ n ∈ s, n ∈ ((kahnLoop reg.length reg []).2).map (fun x => x.name) := by
      intro n hn
      obtain ⟨ent, hent, hname⟩ := inv n hn
      exact hname ▸ List.mem_map_of_mem _ hent
    refine ⟨?_, hmem⟩
    obtain ⟨n₀, hn₀⟩ : ∃ n₀, n₀ ∈ s := by
      cases s with
      | nil => exact absurd rfl hne
      | cons a b => exact ⟨a, by simp⟩
    rcases hkl : kahnLoop reg.length reg [] with ⟨ord, leftov⟩
    have : n₀ ∈ leftov.map (fun x => x.name) := by
      have := hmem n₀ hn₀
      rw [hkl] at this
      exact this
    cases hlf : leftov with
    | nil => rw [hlf] at this; cases this
    | cons a b =>
      rw [hlf] at hkl
      simp [resolveOrder, hfu, hkl]
  · rfl
  · intro reg hex
    cases hfu : firstUnknown (reg.map (fun x => x.name)) reg with
    | none =>
      exfalso
      obtain ⟨e, he, d, hd, hdn⟩ := hex
      have := firstUnknown_none_mem (reg.map (fun x => x.name)) reg hfu e he d hd
      exact hdn (List.mem_of_elem_eq_true this)
    | some d =>
      obtain ⟨h1, e, he, hd⟩ := firstUnknown_eq_some (reg.map (fun x => x.name)) reg d hfu
      refine ⟨d, by simp [resolveOrder, hfu], ?_, e, he, hd⟩
      intro hm
      have h2 : (reg.map (fun x => x.name)).contains d = true := List.elem_eq_true_of_mem hm
      rw [h2] at h1
      cases h1

/-! ## Helper lemmas for the lifecycle orchestrator -/

theorem lookup_append_right_of_not_mem {β : Type} (k : String) (l₁ l₂ : List (String × β))
    (h : ¬ k ∈ l₁.map Prod.fst) : (l₁ ++ l₂).lookup k = l₂.lookup k := by
  induction l₁ with
  | nil => rfl
  | cons p rest ih =>
    obtain ⟨a, b⟩ := p
    have hka : k ≠ a := by
      intro hh
      exact h (by simp [hh])
    rw [List.cons_append, List.lookup_cons]
    rw [beq_eq_false_iff_ne.mpr hka]
    exact ih (fun hm => h (by simp at hm ⊢; exact Or.inr hm))

theorem lookup_append_left_of_some {β : Type} (k : String) (v : β) (l₁ l₂ : List (String × β))
    (h : l₁.lookup k = some v) : (l₁ ++ l₂).lookup k = some v := by
  induction l₁ with
  | nil => cases h
  | cons p rest ih =>
    obtain ⟨a, b⟩ := p
    rw [List.cons_append, List.lookup_cons]
    rw [List.lookup_cons] at h
    cases hk : (k == a) with
    | true => rw [hk] at h; exact h
    | false => rw [hk] at h; exact ih h

theorem lookup_map_name {β : Type} (g : ModuleDef → β) (l : List ModuleDef) (m : ModuleDef)
    (hnd : (l.map (fun x => x.name)).Nodup) (hm : m ∈ l) :
    (l.map (fun x => (x.name, g x))).lookup m.name = some (g m) := by
  induction l with
  | nil => cases hm
  | cons x rest ih =>
    rw [List.map_cons, List.nodup_cons] at hnd
    rcases hm with _ | ⟨_, hm2⟩
    · rw [List.map_cons, List.lookup_cons, beq_self_eq_true]
    · have hne : m.name ≠ x.name := by
        intro hh
        exact hnd.1 (hh ▸ List.mem_map_of_mem (fun y => y.name) hm2)
      rw [List.map_cons, List.lookup_cons, beq_eq_false_iff_ne.mpr hne]
      exact ih hnd.2 hm2

theorem runStartGo_append :
    ∀ (pre rest acc : List ModuleDef), (∀ m ∈ pre, hookFails m.startHook = false) →
    runStartGo (pre ++ rest) acc = runStartGo rest (acc ++ pre) := by
  intro pre
  induction pre with
  | nil => intro rest acc _; simp
  | cons m pres ih =>
    intro rest acc h
    have hm := h m (List.mem_cons_self m pres)
    rw [List.cons_append]
    cases hsh : m.startHook with
    | absent =>
      rw [show runStartGo (m :: (pres ++ rest)) acc = runStartGo (pres ++ rest) (acc ++ [m]) by
        rw [runStartGo, hsh]]
      rw [ih rest (acc ++ [m]) (fun x hx => h x (List.mem_cons_of_mem m hx))]
      simp
    | succeeds =>
      rw [show runStartGo (m :: (pres ++ rest)) acc = runStartGo (pres ++ rest) (acc ++ [m]) by
        rw [runStartGo, hsh]]
      rw [ih rest (acc ++ [m]) (fun x hx => h x (List.mem_cons_of_mem m hx))]
      simp
    | fails msg => rw [hsh] at hm; cases hm

theorem runStartGo_fail (bad : ModuleDef) (post acc : List ModuleDef) (msg : String)
    (hbad : bad.startHook = HookSpec.fails msg) :
    runStartGo (bad :: post) acc =
      { ok := false
        statuses := acc.map (fun (s : ModuleDef) => (s.name, ModStatus.registered))
          ++ (bad.name, ModStatus.error)
          :: post.map (fun (s : ModuleDef) => (s.name, ModStatus.registered))
        errMsgs := [(bad.name, msg)]
        startCalls := startHookCalls acc ++ [bad.name]
        stopCalls := rollbackCalls acc
        aggregate := AggStatus.error } := by
  rw [runStartGo, hbad]

/-- Claim C1: when a start hook fails during a run of start() over the
resolved order (the run decomposes as the successfully started modules
`pre`, the failing module `bad`, and the never-reached modules `post`),
the run reports failure with aggregate status error; the failing module
is marked error with its message recorded; the modules after it are
left registered and their start hooks are never invoked; exactly the
modules that reached running have their stop hooks (when present)
invoked exactly once, in reverse start order, and end registered again;
modules that never reached running have their stop hooks not invoked. -/
theorem start_failure_rollback (pre post : List ModuleDef) (bad : ModuleDef) (msg : String)
    (hnd : ((pre ++ bad :: post).map (fun m => m.name)).Nodup)
    (hpre : ∀ m ∈ pre, hookFails m.startHook = false)
    (hbad : bad.startHook = HookSpec.fails msg) :
    (runStart (pre ++ bad :: post)).ok = false ∧
    (runStart (pre ++ bad :: post)).aggregate = AggStatus.error ∧
    (runStart (pre ++ bad :: post)).statuses.lookup bad.name = some ModStatus.error ∧
    (runStart (pre ++ bad :: post)).errMsgs.lookup bad.name = some msg ∧
    (∀ m ∈ pre, (runStart (pre ++ bad :: post)).statuses.lookup m.name =
      some ModStatus.registered) ∧
    (∀ m ∈ post, (runStart (pre ++ bad :: post)).statuses.lookup m.name =
      some ModStatus.registered ∧ ¬ m.name ∈ (runStart (pre ++ bad :: post)).startCalls) ∧
    (runStart (pre ++ bad :: post)).stopCalls =
      ((pre.filter (fun m => hookPresent m.stopHook)).map (fun m => m.name)).reverse ∧
    (∀ m ∈ pre, hookPresent m.stopHook = true →
      (runStart (pre ++ bad :: post)).stopCalls.count m.name = 1) ∧
    (∀ m ∈ pre, hookPresent m.stopHook = false →
      ¬ m.name ∈ (runStart (pre ++ bad :: post)).stopCalls) ∧
    (∀ m ∈ post, ¬ m.name ∈ (runStart (pre ++ bad :: post)).stopCalls) ∧
    ¬ bad.name ∈ (runStart (pre ++ bad :: post)).stopCalls := by
  have hrun : runStart (pre ++ bad :: post) =
      { ok := false
        statuses := pre.map (fun (s : ModuleDef) => (s.name, ModStatus.registered))
          ++ (bad.name, ModStatus.error)
          :: post.map (fun (s : ModuleDef) => (s.name, ModStatus.registered))
        errMsgs := [(bad.name, msg)]
        startCalls := startHookCalls pre ++ [bad.name]
        stopCalls := rollbackCalls pre
        aggregate := AggStatus.error } := by
    rw [runStart, runStartGo_append pre (bad :: post) [] hpre,
        runStartGo_fail bad post ([] ++ pre) msg hbad]
    simp
  rw [List.map_append, List.map_cons, List.nodup_append] at hnd
  obtain ⟨ndpre, ndcons, disj⟩ := hnd
  rw [List.nodup_cons] at ndcons
  obtain ⟨bad_not_post, ndpost⟩ := ndcons
  have f1 : ¬ bad.name ∈ pre.map (fun m => m.name) :=
    fun h => disj h (List.mem_cons_self _ _)
  have f2 : ∀ m ∈ post, ¬ m.name ∈ pre.map (fun x => x.name) :=
    fun m hm h => disj h (List.mem_cons_of_mem _ (List.mem_map_of_mem _ hm))
  have f3 : ∀ m ∈ post, m.name ≠ bad.name := by
    intro m hm hh
    exact bad_not_post (hh ▸ List.mem_map_of_mem (fun x => x.name) hm)
  have hsub : ∀ n, n ∈ (pre.filter (fun m => hookPresent m.stopHook)).map (fun m => m.name) →
      n ∈ pre.map (fun m => m.name) := by
    intro n hn
    obtain ⟨x, hx, hxe⟩ := List.mem_map.mp hn
    exact hxe ▸ List.mem_map_of_mem _ (List.mem_filter.mp hx).1
  have hndfil : ((pre.filter (fun m => hookPresent m.stopHook)).map (fun m => m.name)).Nodup :=
    ndpre.sublist ((List.filter_sublist pre).map (fun m => m.name))
  have hprekeys : (pre.map (fun s => (s.name, ModStatus.registered))).map Prod.fst =
      pre.map (fun m => m.name) := by simp
  rw [hrun]
  refine ⟨rfl, rfl, ?_, ?_, ?_, ?_, rfl, ?_, ?_, ?_, ?_⟩
  · rw [lookup_append_right_of_not_mem bad.name _ _ (hprekeys ▸ f1)]
    rw [List.lookup_cons, beq_self_eq_true]
  · rw [List.lookup_cons, beq_self_eq_true]
  · intro m hm
    exact lookup_append_left_of_some m.name ModStatus.registered _ _
      (lookup_map_name (fun _ => ModStatus.registered) pre m ndpre hm)
  · intro m hm
    constructor
    · rw [lookup_append_right_of_not_mem m.name _ _ (hprekeys ▸ f2 m hm)]
      rw [List.lookup_cons, beq_eq_false_iff_ne.mpr (f3 m hm)]
      exact lookup_map_name (fun _ => ModStatus.registered) post m ndpost hm
    · intro hmem
      rcases List.mem_append.mp hmem with h1 | h2
      · obtain ⟨x, hx, hxe⟩ := List.mem_map.mp h1
        exact f2 m hm (hxe ▸ List.mem_map_of_mem _ (List.mem_filter.mp hx).1)
      · exact f3 m hm (List.mem_singleton.mp h2)
  · intro m hm hp
    rw [rollbackCalls, List.count_reverse]
    apply List.count_eq_one_of_mem hndfil
    exact List.mem_map_of_mem _ (List.mem_filter.mpr ⟨hm, hp⟩)
  · intro m hm hp hmem
    rw [rollbackCalls, List.mem_reverse] at hmem
    obtain ⟨x, hx, hxe⟩ := List.mem_map.mp hmem
    obtain ⟨hx1, hx2⟩ := List.mem_filter.mp hx
    have : x = m := List.inj_on_of_nodup_map ndpre hx1 hm hxe
    rw [this] at hx2
    rw [hx2] at hp
    cases hp
  · intro m hm hmem
    rw [rollbackCalls, List.mem_reverse] at hmem
    exact f2 m hm (hsub m.name hmem)
  · intro hmem
    rw [rollbackCalls, List.mem_reverse] at hmem
    exact f1 (hsub bad.name hmem)

theorem stopPass_eq :
    ∀ (l : List ModuleDef),
    stopPass l = ((l.filter (fun m => hookPresent m.stopHook)).map (fun m => m.name),
                  l.map (fun m => (m.name, stopStatus m.stopHook))) := by
  intro l
  induction l with
  | nil => rfl
  | cons m rest ih =>
    rw [stopPass, ih]
    cases hp : hookPresent m.stopHook with
    | true => simp [List.filter_cons, hp]
    | false => simp [List.filter_cons, hp]

/-- Claim C5: stop() invokes the stop hooks of the started modules in
reverse start order; a stop hook failure marks only that module error
(the others return to registered) and every remaining module's stop
hook is still invoked exactly once — the pass is never aborted — and
the aggregate status is stopped when the pass completes. -/
theorem stop_pass_best_effort (mods : List ModuleDef)
    (hnd : (mods.map (fun m => m.name)).Nodup) :
    (runStop mods).stopCalls =
      ((mods.filter (fun m => hookPresent m.stopHook)).map (fun m => m.name)).reverse ∧
    (∀ m ∈ mods, hookPresent m.stopHook = true →
      (runStop mods).stopCalls.count m.name = 1) ∧
    (∀ m ∈ mods, (runStop mods).statuses.lookup m.name = some (stopStatus m.stopHook)) ∧
    (∀ m ∈ mods, hookFails m.stopHook = false →
      (runStop mods).statuses.lookup m.name = some ModStatus.registered) ∧
    (runStop mods).aggregate = AggStatus.stopped := by
  have hcalls : (runStop mods).stopCalls =
      ((mods.filter (fun m => hookPresent m.stopHook)).map (fun m => m.name)).reverse := by
    show (stopPass mods.reverse).1 = _
    rw [stopPass_eq]
    rw [List.filter_reverse, List.map_reverse]
  have hndrev : (mods.reverse.map (fun m => m.name)).Nodup := by
    rw [List.map_reverse, List.nodup_reverse]
    exact hnd
  have hndfil : ((mods.filter (fun m => hookPresent m.stopHook)).map (fun m => m.name)).Nodup :=
    hnd.sublist ((List.filter_sublist mods).map (fun m => m.name))
  have hst : ∀ m ∈ mods, (runStop mods).statuses.lookup m.name =
      some (stopStatus m.stopHook) := by
    intro m hm
    show (stopPass mods.reverse).2.lookup m.name = _
    rw [stopPass_eq]
    exact lookup_map_name (fun x => stopStatus x.stopHook) mods.reverse m hndrev
      (List.mem_reverse.mpr hm)
  refine ⟨hcalls, ?_, hst, ?_, rfl⟩
  · intro m hm hp
    rw [hcalls, List.count_reverse]
    apply List.count_eq_one_of_mem hndfil
    exact List.mem_map_of_mem _ (List.mem_filter.mpr ⟨hm, hp⟩)
  · intro m hm hf
    rw [hst m hm]
    cases hsh : m.stopHook with
    | absent => rfl
    | succeeds => rfl
    | fails msg => rw [hsh] at hf; cases hf

/-- Claim C4: a control operation requested while another is in flight
(the orchestrator's single mutual-exclusion lock is held) is rejected
with ControlConflictError; nothing is queued or interleaved — the
orchestrator state is returned exactly unchanged — so completing the
in-flight operation yields the same final state and return value as it
would have without the second call. -/
theorem control_lock_rejects_second (σ : Type) (run : CtrlOp → σ → σ × Bool)
    (o : Orch σ) (op₂ : CtrlOp) (h : o.inFlight.isSome = true) :
    requestControl run o op₂ = (o, Except.error CtrlError.controlConflict) ∧
    completeInFlight run (requestControl run o op₂).1 = completeInFlight run o := by
  cases ho : o.inFlight with
  | none => rw [ho] at h; cases h
  | some op₁ =>
    constructor
    · rw [requestControl, ho]
    · rw [requestControl, ho]

/-- Claim C6: publishing to a topic when a subscriber's bounded buffer
is full applies that subscriber's configured drop policy (drop-oldest
evicts the oldest buffered event and enqueues the new one, drop-newest
discards the new event), increments exactly that subscriber's
dropped-event counter by one, and leaves the delivery to every other
subscriber of the topic exactly as it would have been (publish is a
total function of each subscriber independently, so the publisher is
never blocked or crashed). -/
theorem full_buffer_drop_policy (α : Type) (l₁ l₂ : List (Subscriber α))
    (s : Subscriber α) (e : α) (hfull : s.capacity ≤ s.buffer.length) :
    (offer s e).dropped = s.dropped + 1 ∧
    (s.policy = DropPolicy.dropOldest → (offer s e).buffer = s.buffer.tail ++ [e]) ∧
    (s.policy = DropPolicy.dropNewest → (offer s e).buffer = s.buffer) ∧
    (offer s e).capacity = s.capacity ∧
    publish (l₁ ++ s :: l₂) e = publish l₁ e ++ offer s e :: publish l₂ e := by
  have hnl : ¬ s.buffer.length < s.capacity := by omega
  refine ⟨?_, ?_, ?_, ?_, by simp [publish]⟩
  · rw [offer, if_neg hnl]
    cases hp : s.policy <;> rfl
  · intro hp
    rw [offer, if_neg hnl, hp]
  · intro hp
    rw [offer, if_neg hnl, hp]
  · rw [offer, if_neg hnl]
    cases hp : s.policy <;> rfl

/-- Claim C7: on any error of the /datacenter/logs/stream connection
the client schedules a reconnection after a fixed 5000 ms delay;
reconnecting closes the existing EventSource (when one exists) before
opening a new one on /datacenter/logs/stream; and a connection opened
after some events were already published receives exactly the events
published afterwards — nothing is replayed. -/
theorem log_stream_reconnect_behaviour :
    reconnectDelayMs = 5000 ∧
    (∀ st : LogStreamClient, (onStreamError st).2 = [SseAction.scheduleReconnect 5000]) ∧
    (∀ (st : LogStreamClient) (newId c : Nat), st.current = some c →
      (connectLogStream st newId).2 =
        [SseAction.closeSource c, SseAction.openSource logStreamUrl]) ∧
    (∀ (st : LogStreamClient) (newId : Nat), st.current = none →
      (connectLogStream st newId).2 = [SseAction.openSource logStreamUrl]) ∧
    logStreamUrl = "/datacenter/logs/stream" ∧
    (∀ (old fresh : List LogEntry), deliveredTo (old ++ fresh) old.length = fresh) := by
  refine ⟨rfl, fun st => rfl, ?_, ?_, rfl, ?_⟩
  · intro st newId c hc
    rw [connectLogStream, hc]
    rfl
  · intro st newId hc
    rw [connectLogStream, hc]
    rfl
  · intro old fresh
    rw [deliveredTo]
    exact List.drop_left old fresh

/-- Claim C8: a logs query without an explicit limit argument is issued
as GET /logs with limit=100 (the declared default of
DatacenterApi.getLogs), under the client's /datacenter base URL, and
the result is extracted from the {code, message, data} response
envelope's data field, typed as a list of log entries. -/
theorem logs_query_default_limit :
    getLogsRequest none = { method := "GET", path := "/logs", limitParam := 100 } ∧
    apiBaseUrl = "/datacenter" ∧
    (∀ limit : Nat, getLogsRequest (some limit) =
      { method := "GET", path := "/logs", limitParam := limit }) ∧
    (∀ r : ApiResponse (List LogEntry), getLogsResult r = r.data) :=
  ⟨rfl, rfl, fun _ => rfl, fun _ => rfl⟩

/-- Claim C9: the frontend log store keeps at most 500 entries — from
any state within the bound, addLog appends the new entry and, exactly
when the length then exceeds 500, removes the oldest entry, so the
bound is preserved by every addLog; clearLogs empties the list and
trivially preserves it. -/
theorem log_store_bound_invariant (logs : List LogEntry) (l : LogEntry)
    (h : logs.length ≤ maxStoredLogs) :
    (addLog logs l).length ≤ maxStoredLogs ∧
    (logs.length < maxStoredLogs → addLog logs l = logs ++ [l]) ∧
    (logs.length = maxStoredLogs → addLog logs l = logs.tail ++ [l]) ∧
    clearLogs.length ≤ maxStoredLogs := by
  refine ⟨?_, ?_, ?_, by simp [clearLogs]⟩
  · rw [addLog]
    split
    · rw [List.length_tail]
      simp only [List.length_append, List.length_cons, List.length_nil]
      omega
    · rename_i hnot
      simp only [List.length_append, List.length_cons, List.length_nil] at hnot ⊢
      omega
  · intro hlt
    rw [addLog, if_neg]
    simp only [List.length_append, List.length_cons, List.length_nil]
    omega
  · intro heq
    rw [addLog, if_pos]
    · cases logs with
      | nil =>
        rw [List.length_nil] at heq
        rw [maxStoredLogs] at heq
        cases heq
      | cons x xs => rfl
    · simp only [List.length_append, List.length_cons, List.length_nil]
      omega

/-- Claim C10 (amended): a log stream event whose payload is absent,
whitespace-only, invalid JSON (the parser throws), or parses to a value
failing the truthy-object guard (null, booleans, numbers, strings)
leaves the stored log list unchanged and propagates no exception; a
payload parsing to a JSON object or a JSON array — both of JS typeof
'object' and truthy — is appended. -/
theorem log_event_filter (parse : String → Option Json) (logs : List Json) :
    (handleLogEvent parse none logs = logs) ∧
    (∀ s, isBlank s = true → handleLogEvent parse (some s) logs = logs) ∧
    (∀ s, parse s = none → handleLogEvent parse (some s) logs = logs) ∧
    (∀ s j, parse s = some j → isTruthyJsObject j = false →
      handleLogEvent parse (some s) logs = logs) ∧
    (∀ s j, isBlank s = false → parse s = some j → isTruthyJsObject j = true →
      handleLogEvent parse (some s) logs = logs ++ [j]) := by
  refine ⟨rfl, ?_, ?_, ?_, ?_⟩
  · intro s hs
    rw [handleLogEvent, if_pos hs]
  · intro s hp
    cases ht : isBlank s with
    | true => rw [handleLogEvent, if_pos ht]
    | false =>
      rw [handleLogEvent, if_neg (by rw [ht]; simp), hp]
  · intro s j hp hj
    cases ht : isBlank s with
    | true => rw [handleLogEvent, if_pos ht]
    | false =>
      rw [handleLogEvent, if_neg (by rw [ht]; simp), hp]
      show (if isTruthyJsObject j = true then logs ++ [j] else logs) = logs
      rw [if_neg (by rw [hj]; simp)]
  · intro s j ht hp hj
    rw [handleLogEvent, if_neg (by rw [ht]; simp), hp]
    show (if isTruthyJsObject j = true then logs ++ [j] else logs) = logs ++ [j]
    rw [if_pos hj]

/-- Claim C10 counterexample: the payload "[1]" parses (as JSON.parse
does) to the JSON array [1], which is not a JSON object, yet the
handler appends it to the log list — refuting the claim that only
events parsing to a JSON object are appended and that a non-object
value adds no entry. -/
theorem log_event_appends_array :
    handleLogEvent parseArrayPayload (some "[1]") [] = [Json.arr [Json.num 1]] ∧
    (∀ fields, Json.arr [Json.num 1] ≠ Json.obj fields) := by
  constructor
  · rw [handleLogEvent, if_neg (by decide),
        show parseArrayPayload "[1]" = some (Json.arr [Json.num 1]) from rfl]
    rfl
  · intro fields h
    exact Json.noConfusion h

/-! ## Closed witnesses instantiating the claim theorems -/

/-- Witness for C1 at a concrete two-module system where B's start hook
raises: the hypotheses hold by evaluation and start() reports failure
with B marked error. -/
theorem start_failure_rollback_witness :
    (([modA, modB].map (fun m => m.name)).Nodup ∧
      (∀ m ∈ [modA], hookFails m.startHook = false) ∧
      modB.startHook = HookSpec.fails "boom") ∧
    (runStart [modA, modB]).ok = false ∧
    (runStart [modA, modB]).statuses.lookup "B" = some ModStatus.error :=
  ⟨⟨by decide, by decide, rfl⟩,
    (start_failure_rollback [modA] [] modB "boom" (by decide) (by decide) rfl).1,
    (start_failure_rollback [modA] [] modB "boom" (by decide) (by decide) rfl).2.2.1⟩

/-- Witness for C2 at a concrete three-module registry. -/
theorem resolveOrder_topological_stable_witness :
    ((regSample.map (fun x => x.name)).Nodup ∧ noFwd [] regSample = true) ∧
    resolveOrder regSample = Except.ok ["A", "B", "C"] :=
  ⟨⟨by decide, by decide⟩,
    (resolveOrder_topological_stable regSample (by decide) (by decide)).1⟩

/-- Witness for C3 at the concrete two-cycle registry. -/
theorem resolveOrder_terminates_witness :
    ((regCyc.map (fun x => x.name)).Nodup ∧
      firstUnknown (regCyc.map (fun x => x.name)) regCyc = none ∧
      cycleSet regCyc ["A", "B"] = true) ∧
    (∀ n ∈ ["A", "B"], n ∈ ((kahnLoop regCyc.length regCyc []).2).map (fun x => x.name)) :=
  ⟨⟨by decide, by decide, by decide⟩,
    (resolveOrder_terminates_and_reports_errors.2.1 regCyc ["A", "B"]
      (by decide) (by decide) (by simp) (by decide)).2⟩

/-- Witness for C4 at a concrete orchestrator holding its lock. -/
theorem control_lock_rejects_second_witness :
    ((Orch.mk (some CtrlOp.start) (0 : Nat)).inFlight.isSome = true) ∧
    requestControl (fun _ n => (n + 1, true)) (Orch.mk (some CtrlOp.start) (0 : Nat))
        CtrlOp.stop =
      (Orch.mk (some CtrlOp.start) (0 : Nat), Except.error CtrlError.controlConflict) :=
  ⟨rfl, (control_lock_rejects_second Nat (fun _ n => (n + 1, true))
    (Orch.mk (some CtrlOp.start) (0 : Nat)) CtrlOp.stop rfl).1⟩

/-- Witness for C5 at a concrete pair of started modules, E's stop hook
raising. -/
theorem stop_pass_best_effort_witness :
    (([modD, modE].map (fun m => m.name)).Nodup) ∧
    (runStop [modD, modE]).stopCalls = ["E", "D"] ∧
    (runStop [modD, modE]).aggregate = AggStatus.stopped :=
  ⟨by decide,
    (stop_pass_best_effort [modD, modE] (by decide)).1,
    (stop_pass_best_effort [modD, modE] (by decide)).2.2.2.2⟩

/-- Witness for C6 at a concrete full one-slot subscriber. -/
theorem full_buffer_drop_policy_witness :
    (subFull.capacity ≤ subFull.buffer.length) ∧
    (offer subFull 9).dropped = subFull.dropped + 1 :=
  ⟨by decide, (full_buffer_drop_policy Nat [] [] subFull 9 (by decide)).1⟩

/-- Witness for C7 at a concrete client holding an open EventSource. -/
theorem log_stream_reconnect_witness :
    ((LogStreamClient.mk (some 3) true).current = some 3) ∧
    (connectLogStream (LogStreamClient.mk (some 3) true) 4).2 =
      [SseAction.closeSource 3, SseAction.openSource logStreamUrl] :=
  ⟨rfl, log_stream_reconnect_behaviour.2.2.1 (LogStreamClient.mk (some 3) true) 4 3 rfl⟩

/-- Witness for C9 at the empty store. -/
theorem log_store_bound_witness :
    (([] : List LogEntry).length ≤ maxStoredLogs) ∧
    (addLog [] sampleEntry).length ≤ maxStoredLogs :=
  ⟨by decide, (log_store_bound_invariant [] sampleEntry (by decide)).1⟩

/-- Witness for C10 at a payload parsing to JSON null (falsy, hence not
appended). -/
theorem log_event_filter_witness :
    ((fun (_ : String) => some Json.null) "null" = some Json.null ∧
      isTruthyJsObject Json.null = false) ∧
    handleLogEvent (fun _ => some Json.null) (some "null") [] = [] :=
  ⟨⟨rfl, rfl⟩,
    (log_event_filter (fun _ => some Json.null) []).2.2.2.1 "null" Json.null rfl rfl⟩

end Datacenter
